import Mathlib

/-!
Shallow embedding of the CSP solver in `Assignment.py` (class `CSP` with
`add_variable`, `add_constraint_one_way`, `add_all_different_constraint`,
`get_all_arcs`, `get_all_neighboring_arcs`, `backtracking_search`,
`backtrack`, `select_unassigned_variable`, `inference`, `revise`).

Modelling conventions:
* Python dicts are association lists that keep insertion order; assignment
  to an existing key replaces the value at its position, assignment to a
  fresh key appends at the end.  States built through the class API have
  unique keys, mirroring real dicts.
* Values are Python strings, modelled as `String`.  A domain entry held in
  an assignment is either a list of strings (the usual case) or, because
  line 190 of the source stores the raw candidate value, a bare string;
  `PyDom` captures the two cases and the sequence operations Python applies
  to both (`len`, iteration, membership, `remove`).
* Iterating a Python string yields its characters as one-character strings;
  `remove` on a string raises `AttributeError`.
* A raised exception (`KeyError` / `AttributeError`) is `Res.exn`; the
  `while` loop of `inference` and the recursion of `backtrack` take a fuel
  argument, and exhausted fuel is `Res.out` (so non-termination of the
  Python loop shows up as `Res.out` for every fuel).
* `copy.deepcopy` of immutable model data is the identity.
-/

namespace CSPModel

/-- A value stored under a key of the Python `assignment` dict: either a
list of strings or (after `new_assignment[var] = value` in `backtrack`)
a bare Python string. -/
inductive PyDom where
  | str (s : String)
  | list (l : List String)
deriving Repr, DecidableEq

/-- Python `len` of a domain entry: length of the list, or number of
characters of the string. -/
def pyLen : PyDom → Nat
  | .str s => s.length
  | .list l => l.length

/-- Python iteration over a domain entry: the list's elements, or the
string's characters as one-character strings. -/
def pyIter : PyDom → List String
  | .str s => s.toList.map (fun ch => String.mk [ch])
  | .list l => l

/-- Association-list model of a Python dict (insertion order preserved). -/
abbrev Dict (α : Type) := List (String × α)

/-- Dict lookup (`d[k]`); `none` models a `KeyError`. -/
def dictGet {α : Type} : Dict α → String → Option α
  | [], _ => none
  | (k, v) :: rest, key => if k = key then some v else dictGet rest key

/-- Dict assignment `d[k] = v`: replace in place when the key exists,
append otherwise (Python dict semantics). -/
def dictSet {α : Type} : Dict α → String → α → Dict α
  | [], key, v => [(key, v)]
  | (k, w) :: rest, key, v =>
      if k = key then (k, v) :: rest else (k, w) :: dictSet rest key v

/-- The keys of a dict in insertion order (`d.keys()`). -/
def dictKeys {α : Type} (d : Dict α) : List String := d.map Prod.fst

/-- Two-level lookup `self.constraints[i][j]`. -/
def dictGet2 {α : Type} (d : Dict (Dict α)) (i j : String) : Option α :=
  match dictGet d i with
  | none => none
  | some inner => dictGet inner j

/-- The CSP instance: `self.variables`, `self.domains`, `self.constraints`
from `CSP.__init__` (the two diagnostic counters carry no solver state and
are omitted).  The field `vars` stands for `self.variables`, a name Lean
reserves. -/
structure CSP where
  vars : List String
  domains : Dict (List String)
  constraints : Dict (Dict (List (String × String)))
deriving Repr, DecidableEq

/-- The partial assignment handled by search and propagation: a dict from
variable names to `PyDom` entries. -/
abbrev Assignment := Dict PyDom

/-- Outcome of running a piece of the Python code: a normal return, a
raised exception (`KeyError`/`AttributeError`), or fuel exhaustion of a
loop that has not finished. -/
inductive Res (α : Type) where
  | ok (a : α)
  | exn
  | out
deriving Repr, DecidableEq

/-- `CSP.add_variable`: append the name to `self.variables`, set
`self.domains[name] = list(domain)` and `self.constraints[name] = {}`. -/
def add_variable (c : CSP) (name : String) (domain : List String) : CSP :=
  { vars := c.vars ++ [name]
    domains := dictSet c.domains name domain
    constraints := dictSet c.constraints name [] }

/-- `CSP.get_all_possible_pairs`: `itertools.product(a, b)` in product
order. -/
def get_all_possible_pairs (a b : List String) : List (String × String) :=
  a.flatMap (fun x => b.map (fun y => (x, y)))

/-- `CSP.get_all_arcs`: `[(i, j) for i in self.constraints for j in
self.constraints[i]]`. -/
def get_all_arcs (c : CSP) : List (String × String) :=
  c.constraints.flatMap (fun p => p.2.map (fun q => (p.1, q.1)))

/-- `CSP.get_all_neighboring_arcs`: `[(i, var) for i in
self.constraints[var]]` — the keys of `var`'s own constraint dict, paired
with `var`.  (Python raises `KeyError` for an unregistered `var`; the
model returns `[]` there, and every statement below stays on registered
variables.) -/
def get_all_neighboring_arcs (c : CSP) (var : String) : List (String × String) :=
  ((dictGet c.constraints var).getD []).map (fun p => (p.1, var))

/-- `CSP.add_constraint_one_way`: initialise `self.constraints[i][j]` with
the cross product of the current domains when absent, then filter it with
the predicate.  `none` models the `KeyError` on an unregistered variable. -/
def add_constraint_one_way (c : CSP) (i j : String)
    (f : String → String → Bool) : Option CSP :=
  match dictGet c.constraints i with
  | none => none
  | some ci =>
    match dictGet ci j with
    | some t =>
        let t2 := t.filter (fun p => f p.1 p.2)
        some { c with constraints := dictSet c.constraints i (dictSet ci j t2) }
    | none =>
      match dictGet c.domains i, dictGet c.domains j with
      | some di, some dj =>
          let t2 := (get_all_possible_pairs di dj).filter (fun p => f p.1 p.2)
          some { c with constraints := dictSet c.constraints i (dictSet ci j t2) }
      | _, _ => none

/-- `CSP.add_all_different_constraint`: `add_constraint_one_way(i, j, ≠)`
for every ordered pair of distinct entries of the list. -/
def add_all_different_constraint (c : CSP) (var_list : List String) : Option CSP :=
  (get_all_possible_pairs var_list var_list).foldl
    (fun acc p =>
      match acc with
      | none => none
      | some c1 =>
          if p.1 ≠ p.2 then add_constraint_one_way c1 p.1 p.2 (fun x y => x ≠ y)
          else some c1)
    (some c)

/-- The support test inside `revise`: `sum(arc in self.constraints[i][j]
for arc in list(product([x], assignment[j])))` is nonzero exactly when some
`y` of `j`'s iterated entry makes `(x, y)` a member of the table. -/
def supported (table : List (String × String)) (x : String)
    (djIter : List String) : Bool :=
  djIter.any (fun y => table.contains (x, y))

/-- The `for x in assignment[i]` loop of `revise` when the entry is a
list: Python list iteration is index-based over the live list, so
`assignment[i].remove(x)` makes the element after `x` be skipped.  When
the arc is a self arc (`i = j`) the support test reads the live list too;
otherwise it reads the fixed iterated entry of `j`.  The removal is
guarded by `x in assignment[i] and len(assignment[i]) > 1`. -/
def reviseListLoop (table : List (String × String)) (selfArc : Bool)
    (djIter : List String) :
    Nat → Nat → List String → Bool → Bool × List String
  | 0, _, di, revised => (revised, di)
  | gas + 1, idx, di, revised =>
    match di[idx]? with
    | none => (revised, di)
    | some x =>
      if supported table x (if selfArc then di else djIter) then
        reviseListLoop table selfArc djIter gas (idx + 1) di revised
      else if di.contains x && decide (di.length > 1) then
        reviseListLoop table selfArc djIter gas (idx + 1) (di.erase x) true
      else
        reviseListLoop table selfArc djIter gas (idx + 1) di true

/-- The gas bound of `reviseListLoop` never cuts the loop short: as long
as the list is no longer than `idx + gas` (the invariant `revise`
establishes with `gas = di.length`, `idx = 0`, and every iteration
preserves), any two sufficient gas values run the loop to the same end. -/
theorem reviseListLoop_gas_irrel (table : List (String × String))
    (selfArc : Bool) (djIter : List String) :
    ∀ gas gas2 idx di revised, di.length ≤ idx + gas → di.length ≤ idx + gas2 →
      reviseListLoop table selfArc djIter gas idx di revised =
        reviseListLoop table selfArc djIter gas2 idx di revised := by
  intro gas
  induction gas with
  | zero =>
    intro gas2 idx di revised h1 _
    have hx : di[idx]? = none := by
      rw [List.getElem?_eq_none_iff]; omega
    cases gas2 with
    | zero => rfl
    | succ g => simp [reviseListLoop, hx]
  | succ g ih =>
    intro gas2 idx di revised h1 h2
    cases gas2 with
    | zero =>
      have hx : di[idx]? = none := by
        rw [List.getElem?_eq_none_iff]; omega
      simp [reviseListLoop, hx]
    | succ g2 =>
      simp only [reviseListLoop]
      cases hx : di[idx]? with
      | none => rfl
      | some x =>
        have hlt : idx < di.length := by
          by_contra hge
          rw [List.getElem?_eq_none_iff.mpr (by omega)] at hx
          exact Option.noConfusion hx
        have hex : (di.erase x).length + 1 = di.length :=
          List.length_erase_add_one (List.getElem?_mem hx)
        by_cases hs : supported table x (if selfArc then di else djIter) = true
        · simp only [hs, if_true]
          exact ih g2 (idx + 1) di revised (by omega) (by omega)
        · simp only [eq_false_of_ne_true hs, if_false]
          by_cases hr : (di.contains x && decide (di.length > 1)) = true
          · simp only [hr, if_true]
            exact ih g2 (idx + 1) (di.erase x) true (by omega) (by omega)
          · simp only [eq_false_of_ne_true hr, if_false]
            exact ih g2 (idx + 1) di true (by omega) (by omega)

/-- `CSP.revise`: look up `assignment[i]`; when it is non-empty, test each
iterated value for support in `assignment[j]` against
`self.constraints[i][j]`, set the `revised` flag on every unsupported
value, and remove it only when the entry is a list currently holding more
than one element.  A bare-string entry cannot be mutated: an unsupported
character with `len > 1` raises `AttributeError` (`.exn`); the table and
`assignment[j]` are only read once the loop body runs, so an empty entry
returns `False` without raising. -/
def revise (c : CSP) (a : Assignment) (i j : String) : Res (Bool × Assignment) :=
  match dictGet a i with
  | none => .exn
  | some di =>
    if pyLen di = 0 then .ok (false, a)
    else
      match dictGet2 c.constraints i j, dictGet a j with
      | some table, some dj =>
        match di with
        | .str s =>
            let djIter := if i = j then pyIter (.str s) else pyIter dj
            if (pyIter (.str s)).all (fun x => supported table x djIter) then
              .ok (false, a)
            else if s.length > 1 then .exn
            else .ok (true, a)
        | .list l =>
            let r := reviseListLoop table (i = j) (pyIter dj) l.length 0 l false
            .ok (r.1, dictSet a i (.list r.2))
      | _, _ => .exn

/-- One iteration of the `while` loop of `CSP.inference`, entered with a
non-empty queue: pop the arc `(i, j)` from the back (`queue.pop()`), call
`revise`; the loop either finishes with a returned value or a raised
exception (`Sum.inl`), or continues with the updated assignment and
queue (`Sum.inr`): on a reported revision, `False` is returned when `i`'s
entry is now empty, and otherwise the arcs `(k, i)` with `k ≠ j` from
`get_all_neighboring_arcs(i)` are appended to the queue. -/
def inferenceStep (c : CSP) (a : Assignment) (q : List (String × String)) :
    Res (Bool × Assignment) ⊕ (Assignment × List (String × String)) :=
  match q.getLast? with
  | none => Sum.inl (.ok (true, a))
  | some (i, j) =>
    match revise c a i j with
    | .exn => Sum.inl .exn
    | .out => Sum.inl .out
    | .ok (b, a2) =>
      if b then
        match dictGet a2 i with
        | none => Sum.inl .exn
        | some di =>
          if pyLen di = 0 then Sum.inl (.ok (false, a2))
          else Sum.inr (a2, q.dropLast ++
            (get_all_neighboring_arcs c i).filterMap
              (fun p => if p.1 ≠ j then some (p.1, i) else none))
      else Sum.inr (a2, q.dropLast)

/-- `CSP.inference` (the AC-3 worklist loop): run `inferenceStep` while
the queue is non-empty, returning `True` once it empties.  `fuel` bounds
the number of `while` iterations; `.out` reports that the bound was hit
before the loop finished (so a non-terminating run is `.out` at every
fuel). -/
def inference (c : CSP) : Nat → Assignment → List (String × String) →
    Res (Bool × Assignment)
  | 0, a, q =>
    match q with
    | [] => .ok (true, a)
    | _ :: _ => .out
  | fuel + 1, a, q =>
    match q with
    | [] => .ok (true, a)
    | _ :: _ =>
      match inferenceStep c a q with
      | Sum.inl r => r
      | Sum.inr s => inference c fuel s.1 s.2

/-- The key function of the `min` call in `select_unassigned_variable`:
`float("inf")` (modelled as `none`) when the entry's length is below 2,
otherwise the length. -/
def selectKey (a : Assignment) (v : String) : Option Nat :=
  match dictGet a v with
  | some d => if pyLen d < 2 then none else some (pyLen d)
  | none => none

/-- Strict `<` on key values with `none` playing `float("inf")`
(`inf < inf` is false in Python). -/
def optLt : Option Nat → Option Nat → Bool
  | some x, some y => x < y
  | some _, none => true
  | none, _ => false

/-- `CSP.select_unassigned_variable`: `min(assignment.keys(), key=...)` —
the first key in insertion order whose key value is minimal; `none` models
the `ValueError` Python raises on an empty dict. -/
def select_unassigned_variable (a : Assignment) : Option String :=
  match dictKeys a with
  | [] => none
  | k :: ks =>
      some (ks.foldl
        (fun best y => if optLt (selectKey a y) (selectKey a best) then y else best) k)

/-- The `for value in assignment[var]` loop of `CSP.backtrack`: for each
candidate, deep-copy the assignment and store the raw candidate value
(`new_assignment[var] = value` — a Python string, not a one-element list),
run `inference` over all arcs, and on propagation success recurse through
`bt`; a falsy recursive result (`None` or an empty dict) moves on to the
next candidate. -/
def tryValues (c : CSP) (bt : Assignment → Res (Option Assignment))
    (fuel : Nat) (a : Assignment) (var : String) :
    List String → Res (Option Assignment)
  | [] => .ok none
  | v :: vs =>
    let na := dictSet a var (.str v)
    match inference c fuel na (get_all_arcs c) with
    | .exn => .exn
    | .out => .out
    | .ok (b, na2) =>
      if b then
        match bt na2 with
        | .exn => .exn
        | .out => .out
        | .ok (some res) =>
            if res.length ≠ 0 then .ok (some res)
            else tryValues c bt fuel a var vs
        | .ok none => tryValues c bt fuel a var vs
      else tryValues c bt fuel a var vs

/-- `CSP.backtrack`: return the assignment when the summed lengths of all
entries equal the number of entries, otherwise select a variable and try
its candidates in order.  `fuel` bounds both the recursion depth and the
inner `inference` loops. -/
def backtrack (c : CSP) : Nat → Assignment → Res (Option Assignment)
  | 0, _ => .out
  | fuel + 1, a =>
    if (a.map (fun p => pyLen p.2)).sum = a.length then .ok (some a)
    else
      match select_unassigned_variable a with
      | none => .exn
      | some var =>
        match dictGet a var with
        | none => .exn
        | some d => tryValues c (backtrack c fuel) fuel a var (pyIter d)

/-- `CSP.backtracking_search`: deep-copy `self.domains` into the starting
assignment, run `inference` over all arcs (its Boolean result is discarded
but its domain prunings are kept), then call `backtrack`. -/
def backtracking_search (c : CSP) (fuel : Nat) : Res (Option Assignment) :=
  let a0 : Assignment := c.domains.map (fun p => (p.1, PyDom.list p.2))
  match inference c fuel a0 (get_all_arcs c) with
  | .exn => .exn
  | .out => .out
  | .ok (_, a1) => backtrack c fuel a1

/-! ### Concrete instances used to settle the claims -/

/-- The empty CSP produced by `CSP.__init__`. -/
def emptyCSP : CSP := { vars := [], domains := [], constraints := [] }

/-- The unsolvable two-variable instance of the spec: `A` and `B` share
domain `["1"]`, with a not-equal constraint added in both directions (both
tables filter down to the empty list). -/
def csp2 : CSP :=
  { vars := ["A", "B"]
    domains := [("A", ["1"]), ("B", ["1"])]
    constraints := [("A", [("B", [])]), ("B", [("A", [])])] }

/-- `csp2` is exactly what the class API builds for that instance. -/
theorem csp2_build :
    (add_constraint_one_way (add_variable (add_variable emptyCSP "A" ["1"])
        "B" ["1"]) "A" "B" (fun x y => x ≠ y)).bind
      (fun c => add_constraint_one_way c "B" "A" (fun x y => x ≠ y)) = some csp2 := rfl

/-- The starting assignment `backtracking_search` builds for `csp2`. -/
def asg2 : Assignment := [("A", PyDom.list ["1"]), ("B", PyDom.list ["1"])]

/-- Three variables with domain `["1"]` under an all-different constraint:
all six constraint tables are empty. -/
def csp3 : CSP :=
  { vars := ["A", "B", "C"]
    domains := [("A", ["1"]), ("B", ["1"]), ("C", ["1"])]
    constraints := [("A", [("B", []), ("C", [])]),
                    ("B", [("A", []), ("C", [])]),
                    ("C", [("A", []), ("B", [])])] }

/-- `csp3` is exactly what the class API builds for that instance. -/
theorem csp3_build :
    add_all_different_constraint
      (add_variable (add_variable (add_variable emptyCSP "A" ["1"]) "B" ["1"])
        "C" ["1"]) ["A", "B", "C"] = some csp3 := rfl

/-- The assignment of `csp3`'s domains, as `backtracking_search` builds it. -/
def asg3 : Assignment :=
  [("A", PyDom.list ["1"]), ("B", PyDom.list ["1"]), ("C", PyDom.list ["1"])]

/-- One variable with the two-colour domain `["red", "green"]` and no
constraints. -/
def csp4 : CSP :=
  { vars := ["A"], domains := [("A", ["red", "green"])], constraints := [("A", [])] }

/-- `csp4` is exactly what the class API builds for that instance. -/
theorem csp4_build : add_variable emptyCSP "A" ["red", "green"] = csp4 := rfl

/-- Two variables with a not-equal constraint added in one direction only
(`A → B`): `B`'s own constraint dict stays empty. -/
def cspOneWay : CSP :=
  { vars := ["A", "B"]
    domains := [("A", ["1", "2"]), ("B", ["1", "2"])]
    constraints := [("A", [("B", [("1", "2"), ("2", "1")])]), ("B", [])] }

/-- `cspOneWay` is exactly what the class API builds for that instance. -/
theorem cspOneWay_build :
    add_constraint_one_way (add_variable (add_variable emptyCSP "A" ["1", "2"])
      "B" ["1", "2"]) "A" "B" (fun x y => x ≠ y) = some cspOneWay := rfl

/-- The spec's consistency property for a returned solution, stated in the
spec's words: for every constrained variable pair, the pair of the two
assigned values (the single element each entry iterates to) is a member of
that pair's constraint table. -/
def specConsistent (c : CSP) (a : Assignment) : Bool :=
  (get_all_arcs c).all (fun arc =>
    match dictGet a arc.1, dictGet a arc.2, dictGet2 c.constraints arc.1 arc.2 with
    | some di, some dj, some t =>
      match pyIter di, pyIter dj with
      | [x], [y] => t.contains (x, y)
      | _, _ => false
    | _, _, _ => false)

/-! ### Dictionary lemmas -/

/-- A successful lookup comes from an entry of the dict. -/
theorem mem_of_dictGet_eq_some {α : Type} {d : Dict α} {key : String} {v : α}
    (h : dictGet d key = some v) : (key, v) ∈ d := by
  induction d with
  | nil => exact Option.noConfusion h
  | cons p rest ih =>
    obtain ⟨k, w⟩ := p
    by_cases hk : k = key
    · subst hk
      simp [dictGet] at h
      simp [h]
    · simp [dictGet, hk] at h
      exact List.mem_cons_of_mem _ (ih h)

/-- With no duplicate keys, every entry is found by lookup. -/
theorem dictGet_eq_some_of_mem_nodup {α : Type} {d : Dict α}
    (h : (dictKeys d).Nodup) {key : String} {v : α} (hm : (key, v) ∈ d) :
    dictGet d key = some v := by
  induction d with
  | nil => exact absurd hm (List.not_mem_nil _)
  | cons p rest ih =>
    obtain ⟨k, w⟩ := p
    rw [dictKeys, List.map_cons, List.nodup_cons] at h
    rcases List.mem_cons.mp hm with heq | htl
    · rw [Prod.mk.injEq] at heq
      obtain ⟨h1, h2⟩ := heq
      subst h1
      subst h2
      simp [dictGet]
    · have hkey : key ∈ List.map Prod.fst rest :=
        List.mem_map.mpr ⟨(key, v), htl, rfl⟩
      have hk : k ≠ key := fun hkk => h.1 (by rw [hkk]; exact hkey)
      simpa [dictGet, hk] using ih h.2 htl

/-- Looking up the key just written returns the written value. -/
theorem dictGet_dictSet_self {α : Type} (d : Dict α) (key : String) (v : α) :
    dictGet (dictSet d key v) key = some v := by
  induction d with
  | nil => simp [dictSet, dictGet]
  | cons p rest ih =>
    obtain ⟨k, w⟩ := p
    by_cases hk : k = key
    · subst hk
      simp [dictSet, dictGet]
    · simp [dictSet, dictGet, hk, ih]

/-- Writing back the value a key already holds leaves the dict unchanged. -/
theorem dictSet_of_dictGet_eq {α : Type} {d : Dict α} {key : String} {v : α}
    (h : dictGet d key = some v) : dictSet d key v = d := by
  induction d with
  | nil => exact Option.noConfusion h
  | cons p rest ih =>
    obtain ⟨k, w⟩ := p
    by_cases hk : k = key
    · subst hk
      simp [dictGet] at h
      simp [dictSet, h]
    · simp [dictGet, hk] at h
      simp [dictSet, hk, ih h]

/-- Every entry of a written dict is the written pair or an original
entry. -/
theorem mem_dictSet {α : Type} {d : Dict α} {key : String} {v : α}
    {p : String × α} (h : p ∈ dictSet d key v) : p = (key, v) ∨ p ∈ d := by
  induction d with
  | nil =>
    simp [dictSet] at h
    simp [h]
  | cons q rest ih =>
    obtain ⟨k, w⟩ := q
    by_cases hk : k = key
    · subst hk
      simp [dictSet] at h
      rcases h with h | h
      · left
        simp [h]
      · right
        exact List.mem_cons_of_mem _ h
    · simp [dictSet, hk] at h
      rcases h with h | h
      · right
        simp [h]
      · rcases ih h with h2 | h2
        · left
          exact h2
        · right
          exact List.mem_cons_of_mem _ h2

/-! ### Claims C1 to C5 -/

/-- C1: the claim says every assignment returned by `backtracking_search`
satisfies every binary constraint table.  On `csp2` (two variables with
domain `["1"]` and a not-equal constraint both ways) the search returns
the full assignment `{A: ["1"], B: ["1"]}` even though the pair
`("1", "1")` is not in the (empty) constraint table for `(A, B)`: the
returned "solution" violates the constraint, refuting the claim on the
code. -/
theorem C1_returned_assignment_violates_constraint :
    backtracking_search csp2 10 = .ok (some asg2) ∧
      specConsistent csp2 asg2 = false :=
  ⟨rfl, rfl⟩

/-- C2: the claim says the two-variable instance with shared domain
`{1}` and a not-equal constraint both ways returns the explicit failure
value.  The code instead returns the assignment `{A: ["1"], B: ["1"]}`
itself (the base case of `backtrack` only compares summed domain lengths
with the number of variables, and `revise` never empties a singleton
domain, so the failure is never detected). -/
theorem C2_unsolvable_instance_returns_assignment :
    backtracking_search csp2 10 = .ok (some asg2) ∧
      (Res.ok (some asg2) : Res (Option Assignment)) ≠ .ok none :=
  ⟨rfl, by decide⟩

/-- The queue states of the non-terminating `inference` run on `csp3`:
popping `(C,B)` re-enqueues `(A,C)`, popping `(A,C)` re-enqueues `(B,A)`,
popping `(B,A)` re-enqueues `(C,B)`, returning to the initial queue — a
cycle of period three in which `revise` keeps reporting a revision
without removing anything (all domains are stuck singletons). -/
def csp3QueueA : List (String × String) :=
  [("A", "B"), ("A", "C"), ("B", "A"), ("B", "C"), ("C", "A"), ("C", "B")]

/-- Second queue state of the cycle on `csp3`. -/
def csp3QueueB : List (String × String) :=
  [("A", "B"), ("A", "C"), ("B", "A"), ("B", "C"), ("C", "A"), ("A", "C")]

/-- Third queue state of the cycle on `csp3`. -/
def csp3QueueC : List (String × String) :=
  [("A", "B"), ("A", "C"), ("B", "A"), ("B", "C"), ("C", "A"), ("B", "A")]

/-- On `csp3` the worklist loop cycles through the three queue states
with the assignment unchanged, so every fuel bound is exhausted. -/
theorem inference_csp3_cycle : ∀ n : Nat,
    inference csp3 n asg3 csp3QueueA = .out ∧
      inference csp3 n asg3 csp3QueueB = .out ∧
        inference csp3 n asg3 csp3QueueC = .out := by
  intro n
  induction n with
  | zero => exact ⟨rfl, rfl, rfl⟩
  | succ m ih =>
    refine ⟨?_, ?_, ?_⟩
    · show inference csp3 m asg3 csp3QueueB = .out
      exact ih.2.1
    · show inference csp3 m asg3 csp3QueueC = .out
      exact ih.2.2
    · show inference csp3 m asg3 csp3QueueA = .out
      exact ih.1

/-- C3: the claim says `inference` terminates for every assignment over
the CSP's constraint tables and every finite initial queue.  On `csp3`
(three all-different variables with domain `["1"]`) with the full arc
queue — exactly the call `backtracking_search` makes — the loop never
exhausts the queue: the run is fuel-out at every fuel bound, i.e. the
Python `while` loop runs forever. -/
theorem C3_inference_diverges_on_csp3 :
    ∀ fuel : Nat, inference csp3 fuel asg3 (get_all_arcs csp3) = .out :=
  fun fuel => (inference_csp3_cycle fuel).1

/-- C4: the claim says each branch assignment binds the selected variable
to the one-element sequence holding the candidate.  Line 190 of the source
(`new_assignment[var] = value`) stores the raw string instead: for the
candidate `"red"` the branch entry is the three-character string `"red"`
(length 3, iterating to its characters), not the one-element list
`["red"]`; consequently on `csp4` the search drills into the characters
and returns `A` bound to `"r"`, a value that is not even in `A`'s
domain. -/
theorem C4_branch_stores_raw_value :
    dictSet [("A", PyDom.list ["red", "green"])] "A" (PyDom.str "red") =
        [("A", PyDom.str "red")] ∧
      pyLen (PyDom.str "red") = 3 ∧
      pyIter (PyDom.str "red") = ["r", "e", "d"] ∧
      backtracking_search csp4 10 = .ok (some [("A", PyDom.str "r")]) ∧
      "r" ∉ (["red", "green"] : List String) :=
  ⟨rfl, rfl, rfl, rfl, by decide⟩

/-- C5: the claim says `revise` returns true iff at least one value was
removed in that call.  On `csp2`, `revise(assignment, A, B)` finds the
single value `"1"` unsupported, sets the flag, but removes nothing (the
removal is guarded by `len > 1`): it returns `True` with the assignment
unchanged. -/
theorem C5_revise_true_without_removal :
    revise csp2 asg2 "A" "B" = .ok (true, asg2) := rfl

/-! ### Claim C6 -/

/-- C6, counterexample: on `cspOneWay` (a not-equal constraint added from
`A` to `B` only), `get_all_neighboring_arcs("A")` contains `("B", "A")`
although no constraint table targets `A` (the arc `("B", "A")` does not
exist), refuting the claim that exactly the arcs `(k, var)` with `k`'s
table targeting `var` are returned. -/
theorem C6_counterexample :
    ("B", "A") ∈ get_all_neighboring_arcs cspOneWay "A" ∧
      ("B", "A") ∉ get_all_arcs cspOneWay := by decide

/-- C6, amended: for a CSP whose constraint dict has no duplicate keys
(every state the class API builds), `get_all_neighboring_arcs(var)`
returns exactly the pairs `(k, var)` such that `var`'s own table dict has
key `k` — i.e. the arc `(var, k)` exists — not the pairs with `k`'s table
targeting `var`. -/
theorem C6_neighboring_arcs_characterization (c : CSP)
    (h : (dictKeys c.constraints).Nodup) (v k w : String) :
    (k, w) ∈ get_all_neighboring_arcs c v ↔ w = v ∧ (v, k) ∈ get_all_arcs c := by
  constructor
  · intro hm
    rw [get_all_neighboring_arcs] at hm
    obtain ⟨p, hp, heq⟩ := List.mem_map.mp hm
    rw [Prod.mk.injEq] at heq
    obtain ⟨hk, hw⟩ := heq
    refine ⟨hw.symm, ?_⟩
    cases hg : dictGet c.constraints v with
    | none =>
      rw [hg] at hp
      exact absurd hp (List.not_mem_nil _)
    | some tbl =>
      rw [hg] at hp
      rw [get_all_arcs]
      exact List.mem_flatMap.mpr ⟨(v, tbl), mem_of_dictGet_eq_some hg,
        List.mem_map.mpr ⟨p, hp, by rw [hk]⟩⟩
  · rintro ⟨hw, hm⟩
    subst hw
    rw [get_all_arcs] at hm
    obtain ⟨q, hq, hmm⟩ := List.mem_flatMap.mp hm
    obtain ⟨p, hp, heq⟩ := List.mem_map.mp hmm
    rw [Prod.mk.injEq] at heq
    obtain ⟨h1, h2⟩ := heq
    have hqm : (w, q.2) ∈ c.constraints := by
      rw [← h1]
      exact hq
    have hget : dictGet c.constraints w = some q.2 :=
      dictGet_eq_some_of_mem_nodup h hqm
    rw [get_all_neighboring_arcs, hget]
    exact List.mem_map.mpr ⟨p, hp, by rw [h2]⟩

/-- C6, witness for the amended characterization: `("B", "A")` is a
neighboring arc of `"A"` in `cspOneWay` exactly because the arc
`("A", "B")` exists. -/
theorem C6_characterization_witness :
    ("B", "A") ∈ get_all_neighboring_arcs cspOneWay "A" :=
  (C6_neighboring_arcs_characterization cspOneWay (by decide) "A" "B" "A").mpr
    ⟨rfl, by decide⟩

/-! ### Claim C10 -/

/-- C10: `add_variable` on an already registered name does not fail: it
appends the name a second time to the variable list (so the name's count
is at least two) and replaces the previous domain and the previous
outgoing constraint dict with the new domain and a fresh empty dict. -/
theorem C10_add_variable_duplicate (c : CSP) (name : String)
    (dom : List String) (h : name ∈ c.vars) :
    (add_variable c name dom).vars = c.vars ++ [name] ∧
      2 ≤ (add_variable c name dom).vars.count name ∧
      dictGet (add_variable c name dom).domains name = some dom ∧
      dictGet (add_variable c name dom).constraints name = some [] := by
  refine ⟨rfl, ?_, dictGet_dictSet_self _ _ _, dictGet_dictSet_self _ _ _⟩
  have h1 : 0 < c.vars.count name := List.count_pos_iff.mpr h
  show 2 ≤ List.count name (c.vars ++ [name])
  rw [List.count_append, List.count_singleton]
  simp only [beq_self_eq_true, if_true]
  omega

/-- C10, witness: adding `"A"` again to `csp2`. -/
theorem C10_witness :
    (add_variable csp2 "A" ["9"]).vars = ["A", "B"] ++ ["A"] ∧
      2 ≤ (add_variable csp2 "A" ["9"]).vars.count "A" ∧
      dictGet (add_variable csp2 "A" ["9"]).domains "A" = some ["9"] ∧
      dictGet (add_variable csp2 "A" ["9"]).constraints "A" = some [] :=
  C10_add_variable_duplicate csp2 "A" ["9"] (by decide)

/-! ### Claim C7: propagation never empties a non-empty domain -/

/-- The list loop of `revise` never returns an empty list when it starts
from a non-empty one: a removal is guarded by `len > 1`. -/
theorem reviseListLoop_result_ne_nil (table : List (String × String))
    (selfArc : Bool) (djIter : List String) :
    ∀ gas idx di revised, di ≠ [] →
      (reviseListLoop table selfArc djIter gas idx di revised).2 ≠ [] := by
  intro gas
  induction gas with
  | zero =>
    intro idx di revised h
    exact h
  | succ g ih =>
    intro idx di revised h
    rw [reviseListLoop]
    cases hx : di[idx]? with
    | none => exact h
    | some x =>
      dsimp only
      by_cases hs : supported table x (if selfArc then di else djIter) = true
      · rw [if_pos hs]
        exact ih _ _ _ h
      · rw [if_neg hs]
        by_cases hc : (di.contains x && decide (di.length > 1)) = true
        · rw [if_pos hc]
          apply ih
          have hgt : 1 < di.length :=
            of_decide_eq_true ((Bool.and_eq_true _ _).mp hc).2
          have hmem : x ∈ di := List.getElem?_mem hx
          have hlen2 : (di.erase x).length + 1 = di.length :=
            List.length_erase_add_one hmem
          intro hnil
          rw [hnil] at hlen2
          simp at hlen2
          omega
        · rw [if_neg hc]
          exact ih _ _ _ h

theorem revise_ne_out (c : CSP) (a : Assignment) (i j : String) :
    revise c a i j ≠ .out := by
  rw [revise]
  cases dictGet a i with
  | none => simp
  | some di =>
    by_cases hlen : pyLen di = 0
    · simp [hlen]
    · simp only [hlen, if_false]
      cases dictGet2 c.constraints i j with
      | none => cases dictGet a j <;> simp
      | some table =>
        cases dictGet a j with
        | none => simp
        | some dj =>
          cases di with
          | str s =>
            by_cases hall : ((pyIter (.str s)).all
                (fun x => supported table x (if i = j then pyIter (.str s) else pyIter dj))) = true
            · simp [hall]
            · simp only [hall]
              by_cases hgt : s.length > 1 <;> simp [hgt]
          | list l => simp

theorem revise_preserves_nonempty {c : CSP} {a : Assignment} {i j : String}
    {b : Bool} {a2 : Assignment}
    (hne : ∀ p ∈ a, pyLen p.2 ≠ 0)
    (hr : revise c a i j = .ok (b, a2)) :
    ∀ p ∈ a2, pyLen p.2 ≠ 0 := by
  rw [revise] at hr
  cases hgi : dictGet a i with
  | none =>
    simp only [hgi] at hr
    exact Res.noConfusion hr
  | some di =>
    simp only [hgi] at hr
    by_cases hlen : pyLen di = 0
    · rw [if_pos hlen] at hr
      injection hr with h
      injection h with h1 h2
      subst h2
      exact hne
    · rw [if_neg hlen] at hr
      cases hgt : dictGet2 c.constraints i j with
      | none =>
        simp only [hgt] at hr
        exact Res.noConfusion hr
      | some table =>
        simp only [hgt] at hr
        cases hgj : dictGet a j with
        | none =>
          simp only [hgj] at hr
          exact Res.noConfusion hr
        | some dj =>
          simp only [hgj] at hr
          cases di with
          | str s =>
            dsimp only at hr
            have ha2 : a2 = a := by
              by_cases hall : ((pyIter (.str s)).all
                  (fun x => supported table x (if i = j then pyIter (.str s) else pyIter dj))) = true
              · rw [if_pos hall] at hr
                injection hr with h
                injection h with h1 h2
                exact h2.symm
              · rw [if_neg hall] at hr
                by_cases hsl : s.length > 1
                · rw [if_pos hsl] at hr
                  exact Res.noConfusion hr
                · rw [if_neg hsl] at hr
                  injection hr with h
                  injection h with h1 h2
                  exact h2.symm
            rw [ha2]
            exact hne
          | list l =>
            dsimp only at hr
            injection hr with h
            injection h with h1 h2
            subst h2
            intro p hp
            rcases mem_dictSet hp with hpe | hpm
            · subst hpe
              have hl : l ≠ [] := fun hle => hlen (by rw [hle]; rfl)
              have hres := reviseListLoop_result_ne_nil table (decide (i = j))
                (pyIter dj) l.length 0 l false hl
              intro h0
              exact hres (List.eq_nil_of_length_eq_zero h0)
            · exact hne p hpm

/-- One loop iteration of `inference`, under non-empty domains, either
finishes with `True` and the same assignment, raises, or continues with an
assignment whose domains are again all non-empty — the `False` branch
(empty domain) is unreachable. -/
theorem inferenceStep_cases {c : CSP} {a : Assignment}
    (q : List (String × String)) (hne : ∀ p ∈ a, pyLen p.2 ≠ 0) :
    inferenceStep c a q = Sum.inl (.ok (true, a)) ∨
      inferenceStep c a q = Sum.inl .exn ∨
      ∃ a2 q2, inferenceStep c a q = Sum.inr (a2, q2) ∧
        ∀ p ∈ a2, pyLen p.2 ≠ 0 := by
  rw [inferenceStep]
  cases hql : q.getLast? with
  | none =>
    left
    rfl
  | some ij =>
    obtain ⟨i, j⟩ := ij
    dsimp only
    cases hrv : revise c a i j with
    | exn =>
      right
      left
      rfl
    | out => exact absurd hrv (revise_ne_out c a i j)
    | ok ba =>
      obtain ⟨b, a2⟩ := ba
      have hne2 := revise_preserves_nonempty hne hrv
      dsimp only
      cases b with
      | false =>
        right
        right
        exact ⟨a2, q.dropLast, rfl, hne2⟩
      | true =>
        cases hg2 : dictGet a2 i with
        | none =>
          right
          left
          rfl
        | some di =>
          have hdi : pyLen di ≠ 0 := hne2 (i, di) (mem_of_dictGet_eq_some hg2)
          right
          right
          rw [if_pos rfl]
          dsimp only
          rw [if_neg hdi]
          exact ⟨a2, _, rfl, hne2⟩

/-- Whenever the `inference` loop finishes normally on an all-non-empty
assignment, it returns `True` and the final assignment is again
all-non-empty. -/
theorem inference_preserves (c : CSP) :
    ∀ fuel (a : Assignment) q b a2, (∀ p ∈ a, pyLen p.2 ≠ 0) →
      inference c fuel a q = .ok (b, a2) →
      b = true ∧ ∀ p ∈ a2, pyLen p.2 ≠ 0 := by
  intro fuel
  induction fuel with
  | zero =>
    intro a q b a2 hne hinf
    cases q with
    | nil =>
      rw [inference] at hinf
      injection hinf with h
      injection h with h1 h2
      exact ⟨h1.symm, h2 ▸ hne⟩
    | cons hd tl =>
      rw [inference] at hinf
      exact Res.noConfusion hinf
  | succ f ih =>
    intro a q b a2 hne hinf
    cases q with
    | nil =>
      rw [inference] at hinf
      injection hinf with h
      injection h with h1 h2
      exact ⟨h1.symm, h2 ▸ hne⟩
    | cons hd tl =>
      rw [inference] at hinf
      rcases inferenceStep_cases (c := c) (a := a) (hd :: tl) hne with
        hcase | hcase | ⟨a3, q3, hcase, hne3⟩
      · rw [hcase] at hinf
        injection hinf with h
        injection h with h1 h2
        exact ⟨h1.symm, h2 ▸ hne⟩
      · rw [hcase] at hinf
        exact Res.noConfusion hinf
      · rw [hcase] at hinf
        exact ih a3 q3 b a2 hne3 hinf

/-- C7: when every entry of the assignment is non-empty on entry, `revise`
never empties any entry (a removal only happens when the list has more
than one element), so the empty-domain failure branch of `inference` is
unreachable: every normally finishing run of `inference` returns `True`,
with all entries still non-empty. -/
theorem C7_propagation_never_empties (c : CSP) (a : Assignment)
    (hne : ∀ p ∈ a, pyLen p.2 ≠ 0) :
    (∀ i j b a2, revise c a i j = .ok (b, a2) → ∀ p ∈ a2, pyLen p.2 ≠ 0) ∧
      (∀ fuel q b a2, inference c fuel a q = .ok (b, a2) →
        b = true ∧ ∀ p ∈ a2, pyLen p.2 ≠ 0) :=
  ⟨fun _ _ _ _ hr => revise_preserves_nonempty hne hr,
   fun fuel q b a2 hinf => inference_preserves c fuel a q b a2 hne hinf⟩

/-- C7, witness: on `csp2` with the all-non-empty starting assignment and
the single-arc queue `[("A", "B")]`, the loop finishes with `True` and
non-empty domains. -/
theorem C7_witness : true = true ∧ ∀ p ∈ asg2, pyLen p.2 ≠ 0 :=
  (C7_propagation_never_empties csp2 asg2 (by decide)).2 3 [("A", "B")] true asg2 rfl


/-! ### Claim C9: inference is a no-op on an arc-consistent assignment -/

/-- `optLt` is irreflexive (Python `inf < inf` and `n < n` are false). -/
theorem optLt_irrefl (a : Option Nat) : optLt a a = false := by
  cases a <;> simp [optLt]

/-- `optLt` is transitive. -/
theorem optLt_trans {a b c : Option Nat} (h1 : optLt a b = true)
    (h2 : optLt b c = true) : optLt a c = true := by
  cases a <;> cases b <;> cases c <;> simp [optLt] at * <;> omega

/-- From `a < c` and not `a < b` follows `b < c`. -/
theorem optLt_of_lt_of_not_lt {a b c : Option Nat} (h1 : optLt a c = true)
    (h2 : optLt a b = false) : optLt b c = true := by
  cases a <;> cases b <;> cases c <;> simp [optLt] at * <;> omega

/-- From `b < a` and not `c < a` follows `b < c`. -/
theorem optLt_of_lt_of_not_lt2 {a b c : Option Nat} (h1 : optLt b a = true)
    (h2 : optLt c a = false) : optLt b c = true := by
  cases a <;> cases b <;> cases c <;> simp [optLt] at * <;> omega

/-- When every element of the list is supported, the loop of `revise`
changes nothing and reports no revision. -/
theorem reviseListLoop_noop (table : List (String × String)) (selfArc : Bool)
    (djIter : List String) :
    ∀ gas idx di revised,
      (∀ x ∈ di, supported table x (if selfArc then di else djIter) = true) →
      reviseListLoop table selfArc djIter gas idx di revised = (revised, di) := by
  intro gas
  induction gas with
  | zero =>
    intro idx di revised hsup
    rfl
  | succ g ih =>
    intro idx di revised hsup
    rw [reviseListLoop]
    cases hx : di[idx]? with
    | none => rfl
    | some x =>
      dsimp only
      rw [if_pos (hsup x (List.getElem?_mem hx))]
      exact ih _ _ _ hsup

/-- `revise` on an arc whose values all have support returns `False` and
leaves the assignment unchanged. -/
theorem revise_noop {c : CSP} {a : Assignment} {i j : String}
    {di dj : PyDom} {t : List (String × String)}
    (hgi : dictGet a i = some di) (hgj : dictGet a j = some dj)
    (ht : dictGet2 c.constraints i j = some t)
    (hsup : ∀ x ∈ pyIter di, supported t x (pyIter dj) = true) :
    revise c a i j = .ok (false, a) := by
  rw [revise]
  simp only [hgi]
  by_cases hlen : pyLen di = 0
  · rw [if_pos hlen]
  · rw [if_neg hlen]
    simp only [ht, hgj]
    have hdij : i = j → di = dj := by
      intro hij
      rw [hij] at hgi
      rw [hgi] at hgj
      exact Option.some.inj hgj
    cases di with
    | str s =>
      dsimp only
      have hall : ((pyIter (.str s)).all
          (fun x => supported t x (if i = j then pyIter (.str s) else pyIter dj))) = true := by
        rw [List.all_eq_true]
        intro x hxm
        by_cases hij : i = j
        · rw [if_pos hij]
          have hd2 := hdij hij
          rw [← hd2] at hsup
          exact hsup x hxm
        · rw [if_neg hij]
          exact hsup x hxm
      rw [if_pos hall]
    | list l =>
      dsimp only
      have hloop : reviseListLoop t (decide (i = j)) (pyIter dj) l.length 0 l false
          = (false, l) := by
        apply reviseListLoop_noop
        intro x hxm
        by_cases hij : i = j
        · have hd := hdij hij
          rw [if_pos (by simp [hij])]
          have : pyIter dj = l := by rw [← hd]; rfl
          rw [← this]
          exact hsup x hxm
        · rw [if_neg (by simp [hij])]
          exact hsup x hxm
      rw [hloop]
      dsimp only
      rw [dictSet_of_dictGet_eq hgi]

/-- A queue whose arcs are all no-ops for `revise` is simply drained:
`inference` returns `True` with the assignment unchanged, given fuel for
one iteration per queued arc. -/
theorem inference_noop (c : CSP) :
    ∀ fuel (a : Assignment) q,
      (∀ arc ∈ q, revise c a arc.1 arc.2 = .ok (false, a)) →
      q.length ≤ fuel →
      inference c fuel a q = .ok (true, a) := by
  intro fuel
  induction fuel with
  | zero =>
    intro a q hq hf
    have : q = [] := List.eq_nil_of_length_eq_zero (Nat.le_zero.mp hf)
    subst this
    rfl
  | succ f ih =>
    intro a q hq hf
    cases q with
    | nil => rfl
    | cons hd tl =>
      rw [inference]
      have hstep : inferenceStep c a (hd :: tl) =
          Sum.inr (a, (hd :: tl).dropLast) := by
        rw [inferenceStep]
        cases hql : (hd :: tl).getLast? with
        | none => exact absurd hql (by simp)
        | some arc =>
          obtain ⟨i, j⟩ := arc
          have harc := hq _ (List.mem_of_mem_getLast? hql)
          dsimp only
          rw [harc]
          rfl
      rw [hstep]
      dsimp only
      apply ih
      · intro arc harc
        exact hq arc (List.dropLast_subset _ harc)
      · have : (hd :: tl).dropLast.length = tl.length := by simp
        rw [this]
        have : (hd :: tl).length = tl.length + 1 := rfl
        omega

/-- C9: on an assignment that is arc-consistent for every constrained
pair (every iterated value of `i`'s entry has a supporting value in `j`'s
entry under the table for `(i, j)`), running `inference` with the full
arc set leaves the assignment unchanged and returns `True` (given fuel
for one iteration per arc — each arc is popped exactly once). -/
theorem C9_inference_idempotent (c : CSP) (a : Assignment) (fuel : Nat)
    (hAC : ∀ arc ∈ get_all_arcs c, ∃ di dj t,
      dictGet a arc.1 = some di ∧ dictGet a arc.2 = some dj ∧
        dictGet2 c.constraints arc.1 arc.2 = some t ∧
        ∀ x ∈ pyIter di, supported t x (pyIter dj) = true)
    (hfuel : (get_all_arcs c).length ≤ fuel) :
    inference c fuel a (get_all_arcs c) = .ok (true, a) := by
  apply inference_noop c fuel a (get_all_arcs c) _ hfuel
  intro arc harc
  obtain ⟨di, dj, t, hgi, hgj, ht, hsup⟩ := hAC arc harc
  exact revise_noop hgi hgj ht hsup

/-- A two-variable instance that is already arc-consistent: both values
of each domain have a not-equal partner on the other side. -/
def cspAC : CSP :=
  { vars := ["A", "B"]
    domains := [("A", ["1", "2"]), ("B", ["1", "2"])]
    constraints := [("A", [("B", [("1", "2"), ("2", "1")])]),
                    ("B", [("A", [("1", "2"), ("2", "1")])])] }

/-- The assignment of `cspAC`'s domains. -/
def asgAC : Assignment :=
  [("A", PyDom.list ["1", "2"]), ("B", PyDom.list ["1", "2"])]

/-- C9, witness: on the arc-consistent `cspAC`, running `inference` over
both arcs changes nothing and returns `True`. -/
theorem C9_witness : inference cspAC 3 asgAC (get_all_arcs cspAC) = .ok (true, asgAC) := by
  apply C9_inference_idempotent cspAC asgAC 3 _ (by decide)
  intro arc harc
  have harcs : get_all_arcs cspAC = [("A", "B"), ("B", "A")] := rfl
  rw [harcs] at harc
  rcases List.mem_cons.mp harc with h | h
  · subst h
    exact ⟨PyDom.list ["1", "2"], PyDom.list ["1", "2"], [("1", "2"), ("2", "1")],
      rfl, rfl, rfl, by decide⟩
  · rcases List.mem_cons.mp h with h2 | h2
    · subst h2
      exact ⟨PyDom.list ["1", "2"], PyDom.list ["1", "2"], [("1", "2"), ("2", "1")],
        rfl, rfl, rfl, by decide⟩
    · exact absurd h2 (List.not_mem_nil _)


/-! ### Claim C8: minimum-remaining-values selection -/

/-- The fold inside `select_unassigned_variable`, named for the proofs:
Python `min` keeps the first element whose key value is strictly
smallest. -/
def pyMinFold (f : String → Option Nat) (ks : List String) (x : String) : String :=
  ks.foldl (fun best y => if optLt (f y) (f best) then y else best) x

/-- Invariant of Python `min` with a key function: the result is an
element of the list, no element's key is strictly below the result's key,
and every element strictly before the result has a strictly larger key —
the first minimum wins. -/
theorem pyMinFold_spec (f : String → Option Nat) :
    ∀ (ks : List String) (x : String),
      ∃ pre post,
        x :: ks = pre ++ pyMinFold f ks x :: post ∧
        (∀ y ∈ x :: ks, optLt (f y) (f (pyMinFold f ks x)) = false) ∧
        (∀ y ∈ pre, optLt (f (pyMinFold f ks x)) (f y) = true) := by
  intro ks
  induction ks with
  | nil =>
    intro x
    refine ⟨[], [], rfl, ?_, ?_⟩
    · intro y hy
      rw [List.mem_singleton] at hy
      subst hy
      exact optLt_irrefl (f y)
    · intro y hy
      exact absurd hy (List.not_mem_nil _)
  | cons z ks ih =>
    intro x
    by_cases hzx : optLt (f z) (f x) = true
    · have hfold : pyMinFold f (z :: ks) x = pyMinFold f ks z := by
        rw [pyMinFold, List.foldl_cons, if_pos hzx]
        rfl
      obtain ⟨pre, post, hdec, hmin, hpre⟩ := ih z
      refine ⟨x :: pre, post, ?_, ?_, ?_⟩
      · rw [hfold, List.cons_append, ← hdec]
      · intro y hy
        rw [hfold]
        rcases List.mem_cons.mp hy with rfl | hy2
        · have hzb : optLt (f z) (f (pyMinFold f ks z)) = false :=
            hmin z (List.mem_cons_self _ _)
          by_contra hxy
          rw [Bool.not_eq_false] at hxy
          exact absurd (optLt_trans hzx hxy) (by rw [hzb]; simp)
        · exact hmin y hy2
      · intro y hy
        rw [hfold]
        rcases List.mem_cons.mp hy with rfl | hy2
        · have hzb : optLt (f z) (f (pyMinFold f ks z)) = false :=
            hmin z (List.mem_cons_self _ _)
          exact optLt_of_lt_of_not_lt hzx hzb
        · exact hpre y hy2
    · have hzx2 : optLt (f z) (f x) = false := Bool.not_eq_true _ ▸ hzx
      have hfold : pyMinFold f (z :: ks) x = pyMinFold f ks x := by
        rw [pyMinFold, List.foldl_cons, if_neg (by rw [hzx2]; simp)]
        rfl
      obtain ⟨pre, post, hdec, hmin, hpre⟩ := ih x
      cases pre with
      | nil =>
        have hbx : pyMinFold f ks x = x := by
          have := hdec
          rw [List.nil_append] at this
          exact (List.cons.injEq .. ▸ this).1.symm
        refine ⟨[], z :: ks, ?_, ?_, ?_⟩
        · rw [hfold, hbx, List.nil_append]
        · intro y hy
          rw [hfold]
          rcases List.mem_cons.mp hy with rfl | hy2
          · exact hmin y (List.mem_cons_self _ _)
          · rcases List.mem_cons.mp hy2 with rfl | hy3
            · rw [hbx]
              exact hzx2
            · exact hmin y (List.mem_cons_of_mem _ hy3)
        · intro y hy
          exact absurd hy (List.not_mem_nil _)
      | cons x2 pre2 =>
        have hx2 : x2 = x ∧ ks = pre2 ++ pyMinFold f ks x :: post := by
          rw [List.cons_append] at hdec
          have h1 := (List.cons.injEq .. ▸ hdec).1
          have h2 := (List.cons.injEq .. ▸ hdec).2
          exact ⟨h1.symm, h2⟩
        obtain ⟨hx2e, hks⟩ := hx2
        have hbx : optLt (f (pyMinFold f ks x)) (f x) = true := by
          have hb0 := hpre x2 (List.mem_cons_self _ _)
          rw [hx2e] at hb0
          exact hb0
        refine ⟨x :: z :: pre2, post, ?_, ?_, ?_⟩
        · rw [hfold, List.cons_append, List.cons_append, ← hks]
        · intro y hy
          rw [hfold]
          rcases List.mem_cons.mp hy with rfl | hy2
          · exact hmin y (List.mem_cons_self _ _)
          · rcases List.mem_cons.mp hy2 with rfl | hy3
            · by_contra hzy
              rw [Bool.not_eq_false] at hzy
              exact absurd (optLt_trans hzy hbx) (by rw [hzx2]; simp)
            · exact hmin y (List.mem_cons_of_mem _ hy3)
        · intro y hy
          rw [hfold]
          rcases List.mem_cons.mp hy with rfl | hy2
          · exact hbx
          · rcases List.mem_cons.mp hy2 with rfl | hy3
            · exact optLt_of_lt_of_not_lt2 hbx hzx2
            · exact hpre y (List.mem_cons_of_mem _ hy3)

/-- A key present in a dict is found by lookup. -/
theorem exists_dictGet_of_mem_keys {α : Type} {d : Dict α} {k : String}
    (h : k ∈ dictKeys d) : ∃ v, dictGet d k = some v := by
  induction d with
  | nil => exact absurd h (List.not_mem_nil _)
  | cons p rest ih =>
    obtain ⟨k0, v0⟩ := p
    by_cases hk : k0 = k
    · exact ⟨v0, by simp [dictGet, hk]⟩
    · rw [dictKeys, List.map_cons] at h
      rcases List.mem_cons.mp h with h2 | h2
      · exact absurd h2.symm hk
      · obtain ⟨v, hv⟩ := ih h2
        exact ⟨v, by simp [dictGet, hk, hv]⟩

/-- C8: on an assignment (unique keys, as every Python dict has) holding
at least one entry with length 2 or more, `select_unassigned_variable`
returns a variable whose entry has length 2 or more, minimal among all
entries of length 2 or more, and every variable listed before it is
either decided (length below 2, treated as infinite) or strictly
larger — the first minimum in insertion order, deterministically. -/
theorem C8_select_smallest (a : Assignment)
    (hnd : (dictKeys a).Nodup)
    (hx : ∃ p ∈ a, 2 ≤ pyLen p.2) :
    ∃ v d pre post, select_unassigned_variable a = some v ∧
      dictGet a v = some d ∧ 2 ≤ pyLen d ∧
      (∀ p ∈ a, 2 ≤ pyLen p.2 → pyLen d ≤ pyLen p.2) ∧
      dictKeys a = pre ++ v :: post ∧
      (∀ w ∈ pre, ∀ e, dictGet a w = some e → 2 ≤ pyLen e → pyLen d < pyLen e) := by
  obtain ⟨p0, hp0, hp0len⟩ := hx
  cases hk : dictKeys a with
  | nil =>
    exfalso
    have hm : p0.1 ∈ dictKeys a := List.mem_map.mpr ⟨p0, hp0, rfl⟩
    rw [hk] at hm
    exact List.not_mem_nil _ hm
  | cons k ks =>
    have hsel : select_unassigned_variable a = some (pyMinFold (selectKey a) ks k) := by
      rw [select_unassigned_variable, hk]
      rfl
    obtain ⟨pre, post, hdec, hmin, hpre⟩ := pyMinFold_spec (selectKey a) ks k
    set b := pyMinFold (selectKey a) ks k with hb
    have hbmem : b ∈ dictKeys a := by
      rw [hk, hdec]
      exact List.mem_append_right _ (List.mem_cons_self _ _)
    obtain ⟨d, hd⟩ := exists_dictGet_of_mem_keys hbmem
    have hg0 : dictGet a p0.1 = some p0.2 := dictGet_eq_some_of_mem_nodup hnd hp0
    have hf0 : selectKey a p0.1 = some (pyLen p0.2) := by
      rw [selectKey]
      simp only [hg0]
      rw [if_neg (by omega)]
    have h0mem : p0.1 ∈ k :: ks := by
      rw [← hk]
      exact List.mem_map.mpr ⟨p0, hp0, rfl⟩
    have h0min := hmin p0.1 h0mem
    have hdlen : ¬ pyLen d < 2 := by
      intro hlt
      have hfb : selectKey a b = none := by
        rw [selectKey]
        simp only [hd]
        rw [if_pos hlt]
      rw [hf0, hfb] at h0min
      simp [optLt] at h0min
    have hfb : selectKey a b = some (pyLen d) := by
      rw [selectKey]
      simp only [hd]
      rw [if_neg hdlen]
    refine ⟨b, d, pre, post, hsel, hd, by omega, ?_, hdec, ?_⟩
    · intro p hp hplen
      have hgp : dictGet a p.1 = some p.2 := dictGet_eq_some_of_mem_nodup hnd hp
      have hfp : selectKey a p.1 = some (pyLen p.2) := by
        rw [selectKey]
        simp only [hgp]
        rw [if_neg (by omega)]
      have hpm : p.1 ∈ k :: ks := by
        rw [← hk]
        exact List.mem_map.mpr ⟨p, hp, rfl⟩
      have hmt := hmin p.1 hpm
      rw [hfp, hfb] at hmt
      simp [optLt] at hmt
      omega
    · intro w hw e hge helen
      have hfw : selectKey a w = some (pyLen e) := by
        rw [selectKey]
        simp only [hge]
        rw [if_neg (by omega)]
      have hpt := hpre w hw
      rw [hfw, hfb] at hpt
      simp [optLt] at hpt
      omega

/-- A three-variable assignment: `A` decided, `B` of size 3, `C` of size
2; the minimum-remaining-values choice is `C`. -/
def asgW : Assignment :=
  [("A", PyDom.list ["1"]), ("B", PyDom.list ["1", "2", "3"]),
   ("C", PyDom.list ["1", "2"])]

/-- C8, witness: the selection property instantiated on `asgW`. -/
theorem C8_witness :
    ∃ v d pre post, select_unassigned_variable asgW = some v ∧
      dictGet asgW v = some d ∧ 2 ≤ pyLen d ∧
      (∀ p ∈ asgW, 2 ≤ pyLen p.2 → pyLen d ≤ pyLen p.2) ∧
      dictKeys asgW = pre ++ v :: post ∧
      (∀ w ∈ pre, ∀ e, dictGet asgW w = some e → 2 ≤ pyLen e → pyLen d < pyLen e) :=
  C8_select_smallest asgW (by decide)
    ⟨("B", PyDom.list ["1", "2", "3"]), by decide, by decide⟩

end CSPModel
